import Mathlib

/-!
Shallow embedding of the repository's two translation units:
`src/math/binary_exponent.cpp` (binary exponentiation, recursive and
iterative) and the extended Euclid file (recursive and iterative
extended gcd).

`long long` values are modelled as `Int` together with an explicit
reduction `wrap64` to the two's-complement interval [-2^63, 2^63)
applied after every arithmetic operation; this is the wraparound
semantics the specification fixes for 64-bit overflow.  C++ `/` and
`%` on `long long` truncate toward zero, hence `Int.tdiv` and
`Int.tmod`; `>>= 1` on a signed value is the arithmetic shift, i.e.
flooring division by two.
-/

namespace CPP

/-- Number of distinct 64-bit values, 2^64. -/
abbrev M64 : Nat := 18446744073709551616

/-- Reduce an integer to its two's-complement representative in
[-2^63, 2^63). -/
def wrap64 (n : Int) : Int :=
  (n + 9223372036854775808) % 18446744073709551616 - 9223372036854775808

/-- `n` is a representable `long long` value. -/
def Int64Range (n : Int) : Prop :=
  -9223372036854775808 ≤ n ∧ n < 9223372036854775808

instance (n : Int) : Decidable (Int64Range n) :=
  inferInstanceAs (Decidable (_ ∧ _))

/-- 64-bit wrapping addition. -/
def add64 (a b : Int) : Int := wrap64 (a + b)

/-- 64-bit wrapping subtraction. -/
def sub64 (a b : Int) : Int := wrap64 (a - b)

/-- 64-bit wrapping multiplication. -/
def mul64 (a b : Int) : Int := wrap64 (a * b)

/-- 64-bit truncating division (C++ `/`). -/
def tdiv64 (a b : Int) : Int := wrap64 (Int.tdiv a b)

/-- 64-bit truncating remainder (C++ `%`). -/
def tmod64 (a b : Int) : Int := wrap64 (Int.tmod a b)

/-- 64-bit arithmetic right shift by one bit (C++ `>>= 1`). -/
def asr64 (a : Int) : Int := wrap64 (Int.fdiv a 2)

theorem wrap64_range (n : Int) : Int64Range (wrap64 n) := by
  unfold Int64Range wrap64
  omega

theorem wrap64_eq_self {n : Int} (h : Int64Range n) : wrap64 n = n := by
  unfold Int64Range at h
  unfold wrap64
  omega

theorem intCast_wrap64 (n : Int) :
    ((wrap64 n : Int) : ZMod M64) = (n : ZMod M64) := by
  rw [ZMod.intCast_eq_intCast_iff]
  show _ % _ = _ % _
  unfold wrap64
  push_cast
  omega

theorem int64_cast_inj {x y : Int} (hx : Int64Range x) (hy : Int64Range y)
    (h : (x : ZMod M64) = (y : ZMod M64)) : x = y := by
  rw [ZMod.intCast_eq_intCast_iff] at h
  replace h : x % ((M64 : Nat) : Int) = y % ((M64 : Nat) : Int) := h
  unfold Int64Range at hx hy
  push_cast at h
  omega

theorem intCast_add64 (a b : Int) :
    ((add64 a b : Int) : ZMod M64) = (a : ZMod M64) + (b : ZMod M64) := by
  unfold add64
  rw [intCast_wrap64]
  push_cast
  ring

theorem intCast_sub64 (a b : Int) :
    ((sub64 a b : Int) : ZMod M64) = (a : ZMod M64) - (b : ZMod M64) := by
  unfold sub64
  rw [intCast_wrap64]
  push_cast
  ring

theorem intCast_mul64 (a b : Int) :
    ((mul64 a b : Int) : ZMod M64) = (a : ZMod M64) * (b : ZMod M64) := by
  unfold mul64
  rw [intCast_wrap64]
  push_cast
  ring

theorem intCast_tdiv64 (a b : Int) :
    ((tdiv64 a b : Int) : ZMod M64) = ((Int.tdiv a b : Int) : ZMod M64) := by
  unfold tdiv64
  rw [intCast_wrap64]

theorem tmod_eq_sub_tdiv_mul (a b : Int) :
    Int.tmod a b = a - b * Int.tdiv a b := by
  have h := Int.tdiv_add_tmod a b
  linarith

theorem intCast_tmod64 (a b : Int) :
    ((tmod64 a b : Int) : ZMod M64)
      = (a : ZMod M64) - (b : ZMod M64) * ((Int.tdiv a b : Int) : ZMod M64) := by
  unfold tmod64
  rw [intCast_wrap64, tmod_eq_sub_tdiv_mul]
  push_cast
  ring

theorem tmod_neg_left (a b : Int) : (-a).tmod b = -(a.tmod b) := by
  rw [Int.tmod_def, Int.tmod_def, Int.neg_tdiv]
  ring

theorem natAbs_tmod (a b : Int) : (a.tmod b).natAbs = a.natAbs % b.natAbs := by
  obtain ⟨m, hm | hm⟩ : ∃ m : Nat, a = (m : Int) ∨ a = -(m : Int) :=
    ⟨a.natAbs, Int.natAbs_eq a⟩ <;>
  obtain ⟨n, hn | hn⟩ : ∃ n : Nat, b = (n : Int) ∨ b = -(n : Int) :=
    ⟨b.natAbs, Int.natAbs_eq b⟩ <;>
  subst hm <;> subst hn <;>
  simp [Int.tmod_neg, tmod_neg_left, Int.natAbs_neg, ← Int.ofNat_tmod] <;>
  omega

theorem tmod64_natAbs_lt (a b : Int) (hb : b ≠ 0) :
    (tmod64 a b).natAbs < b.natAbs := by
  have h2 : (Int.tmod a b).natAbs < b.natAbs := by
    rw [natAbs_tmod]
    exact Nat.mod_lt _ (Int.natAbs_pos.mpr hb)
  unfold tmod64 wrap64
  omega

theorem tdiv64_two_natAbs_lt (e : Int) (he : e ≠ 0) :
    (tdiv64 e 2).natAbs < e.natAbs := by
  have h1 : (Int.tdiv e 2).natAbs = e.natAbs / 2 := by
    rw [Int.natAbs_tdiv]
    rfl
  have h0 : e.natAbs ≠ 0 := Int.natAbs_ne_zero.mpr he
  unfold tdiv64 wrap64
  omega

theorem asr64_toNat_lt (e : Int) (he : 0 < e) : (asr64 e).toNat < e.toNat := by
  unfold asr64
  rw [Int.fdiv_eq_ediv _ (by norm_num)]
  unfold wrap64
  omega

/-- One division step of the iterative loop, `a - (a / b) * b`, coincides
with the truncating remainder `a % b` in 64-bit arithmetic. -/
theorem sub_tdiv_mul_eq_tmod64 (a b : Int) :
    sub64 a (mul64 (tdiv64 a b) b) = tmod64 a b := by
  apply int64_cast_inj (by unfold sub64; exact wrap64_range _)
    (by unfold tmod64; exact wrap64_range _)
  rw [intCast_sub64, intCast_mul64, intCast_tdiv64, intCast_tmod64]
  ring

/-- Embedding of `extended_euclid_recursive` from the extended-Euclid
translation unit: base case `b == 0` yields `(a, 1, 0)`; otherwise recurse
on `(b, a % b)` and back-substitute `x = y1`, `y = x1 - (a / b) * y1`. -/
def extended_euclid_recursive (a b : Int) : Int × Int × Int :=
  if hb : b = 0 then (a, 1, 0)
  else
    match extended_euclid_recursive b (tmod64 a b) with
    | (g, x1, y1) => (g, y1, sub64 x1 (mul64 (tdiv64 a b) y1))
termination_by b.natAbs
decreasing_by exact tmod64_natAbs_lt a b hb

/-- Embedding of the `while (b != 0)` loop body of
`extended_euclid_iterative`: state `(a, b, x0, y0, x1, y1)`, step
`q = a / b`, `(a, b) := (b, a - q * b)`, `(x0, x1) := (x1, x0 - q * x1)`,
`(y0, y1) := (y1, y0 - q * y1)`; on exit returns `(a, x0, y0)`. -/
def euclidLoop (a b x0 y0 x1 y1 : Int) : Int × Int × Int :=
  if hb : b = 0 then (a, x0, y0)
  else
    euclidLoop b (sub64 a (mul64 (tdiv64 a b) b))
      x1 y1 (sub64 x0 (mul64 (tdiv64 a b) x1)) (sub64 y0 (mul64 (tdiv64 a b) y1))
termination_by b.natAbs
decreasing_by
  rw [sub_tdiv_mul_eq_tmod64]
  exact tmod64_natAbs_lt a b hb

/-- Embedding of `extended_euclid_iterative`: run the loop from
`x0 = 1, y0 = 0, x1 = 0, y1 = 1`. -/
def extended_euclid_iterative (a b : Int) : Int × Int × Int :=
  euclidLoop a b 1 0 0 1

/-- The bare gcd recursion both extended-Euclid variants follow: the
working value `a` at the moment `b` reaches 0. -/
def euclidGcd (a b : Int) : Int :=
  if hb : b = 0 then a else euclidGcd b (tmod64 a b)
termination_by b.natAbs
decreasing_by exact tmod64_natAbs_lt a b hb

/-- Embedding of `binary_exponent_recursive` from
`src/math/binary_exponent.cpp`: `exponent == 0` returns 1, otherwise
`half = f(base, exponent / 2)` and the result is `half * half * base`
when `exponent % 2` is nonzero, else `half * half`. -/
def binary_exponent_recursive (base exponent : Int) : Int :=
  if he : exponent = 0 then 1
  else
    let half := binary_exponent_recursive base (tdiv64 exponent 2)
    if tmod64 exponent 2 ≠ 0 then mul64 (mul64 half half) base
    else mul64 half half
termination_by exponent.natAbs
decreasing_by exact tdiv64_two_natAbs_lt exponent he

/-- Embedding of the `while (exponent > 0)` loop of
`binary_exponent_iterative`: if the low bit of `exponent` is set multiply
`res` by `base`, then square `base` and shift `exponent` right by one. -/
def expLoop (base exponent res : Int) : Int :=
  if he : 0 < exponent then
    expLoop (mul64 base base) (asr64 exponent)
      (if tmod64 exponent 2 ≠ 0 then mul64 res base else res)
  else res
termination_by exponent.toNat
decreasing_by exact asr64_toNat_lt exponent he

/-- Embedding of `binary_exponent_iterative`: run the loop with `res = 1`. -/
def binary_exponent_iterative (base exponent : Int) : Int :=
  expLoop base exponent 1

/-- Fuel-indexed version of `extended_euclid_recursive`; `none` means the
fuel ran out before the recursion reached its base case.  Structural in the
fuel, so concrete inputs evaluate by `decide`. -/
def eerFuel : Nat → Int → Int → Option (Int × Int × Int)
  | 0, _, _ => none
  | fuel + 1, a, b =>
    if b = 0 then some (a, 1, 0)
    else
      match eerFuel fuel b (tmod64 a b) with
      | none => none
      | some (g, x1, y1) => some (g, y1, sub64 x1 (mul64 (tdiv64 a b) y1))

/-- Fuel-indexed version of `euclidLoop`. -/
def euclidLoopFuel : Nat → Int → Int → Int → Int → Int → Int →
    Option (Int × Int × Int)
  | 0, _, _, _, _, _, _ => none
  | fuel + 1, a, b, x0, y0, x1, y1 =>
    if b = 0 then some (a, x0, y0)
    else
      euclidLoopFuel fuel b (sub64 a (mul64 (tdiv64 a b) b))
        x1 y1 (sub64 x0 (mul64 (tdiv64 a b) x1)) (sub64 y0 (mul64 (tdiv64 a b) y1))

/-- Fuel-indexed version of `binary_exponent_recursive`. -/
def berFuel : Nat → Int → Int → Option Int
  | 0, _, _ => none
  | fuel + 1, base, exponent =>
    if exponent = 0 then some 1
    else
      match berFuel fuel base (tdiv64 exponent 2) with
      | none => none
      | some half =>
          if tmod64 exponent 2 ≠ 0 then some (mul64 (mul64 half half) base)
          else some (mul64 half half)

/-- Fuel-indexed version of `expLoop`. -/
def expLoopFuel : Nat → Int → Int → Int → Option Int
  | 0, _, _, _ => none
  | fuel + 1, base, exponent, res =>
    if 0 < exponent then
      expLoopFuel fuel (mul64 base base) (asr64 exponent)
        (if tmod64 exponent 2 ≠ 0 then mul64 res base else res)
    else some res

/-- 64-bit wrapping power, the mathematical value both exponentiation
variants compute. -/
def npow64 (b : Int) (n : Nat) : Int := wrap64 (b ^ n)

theorem eerFuel_adequate (fuel : Nat) :
    ∀ a b : Int, b.natAbs < fuel →
      eerFuel fuel a b = some (extended_euclid_recursive a b) := by
  induction fuel with
  | zero => intro a b h; omega
  | succ n ih =>
    intro a b h
    by_cases hb : b = 0
    · subst hb
      simp [eerFuel, extended_euclid_recursive]
    · have hlt := tmod64_natAbs_lt a b hb
      have ihe := ih b (tmod64 a b) (by omega)
      rcases hE : extended_euclid_recursive b (tmod64 a b) with ⟨g, x1, y1⟩
      rw [hE] at ihe
      simp only [eerFuel, if_neg hb, ihe]
      have hunf : extended_euclid_recursive a b
          = (g, y1, sub64 x1 (mul64 (tdiv64 a b) y1)) := by
        rw [extended_euclid_recursive]
        simp [hb, hE]
      rw [hunf]

theorem euclidLoopFuel_adequate (fuel : Nat) :
    ∀ a b x0 y0 x1 y1 : Int, b.natAbs < fuel →
      euclidLoopFuel fuel a b x0 y0 x1 y1 = some (euclidLoop a b x0 y0 x1 y1) := by
  induction fuel with
  | zero => intro a b x0 y0 x1 y1 h; omega
  | succ n ih =>
    intro a b x0 y0 x1 y1 h
    by_cases hb : b = 0
    · subst hb
      simp [euclidLoopFuel, euclidLoop]
    · have hlt : (sub64 a (mul64 (tdiv64 a b) b)).natAbs < b.natAbs := by
        rw [sub_tdiv_mul_eq_tmod64]
        exact tmod64_natAbs_lt a b hb
      have ihe := ih b (sub64 a (mul64 (tdiv64 a b) b))
        x1 y1 (sub64 x0 (mul64 (tdiv64 a b) x1)) (sub64 y0 (mul64 (tdiv64 a b) y1))
        (by omega)
      simp only [euclidLoopFuel, if_neg hb, ihe]
      have hunf : euclidLoop a b x0 y0 x1 y1
          = euclidLoop b (sub64 a (mul64 (tdiv64 a b) b))
              x1 y1 (sub64 x0 (mul64 (tdiv64 a b) x1))
              (sub64 y0 (mul64 (tdiv64 a b) y1)) := by
        rw [euclidLoop]
        simp [hb]
      rw [hunf]

theorem berFuel_adequate (fuel : Nat) :
    ∀ base e : Int, e.natAbs < fuel →
      berFuel fuel base e = some (binary_exponent_recursive base e) := by
  induction fuel with
  | zero => intro base e h; omega
  | succ n ih =>
    intro base e h
    by_cases he : e = 0
    · subst he
      simp [berFuel, binary_exponent_recursive]
    · have hlt := tdiv64_two_natAbs_lt e he
      have ihe := ih base (tdiv64 e 2) (by omega)
      simp only [berFuel, if_neg he, ihe]
      have hunf : binary_exponent_recursive base e
          = if tmod64 e 2 ≠ 0 then
              mul64 (mul64 (binary_exponent_recursive base (tdiv64 e 2))
                (binary_exponent_recursive base (tdiv64 e 2))) base
            else mul64 (binary_exponent_recursive base (tdiv64 e 2))
              (binary_exponent_recursive base (tdiv64 e 2)) := by
        rw [binary_exponent_recursive]
        simp [he]
      rw [hunf]
      by_cases hpar : tmod64 e 2 ≠ 0 <;> simp [hpar]

theorem expLoopFuel_adequate (fuel : Nat) :
    ∀ base e res : Int, e.toNat < fuel →
      expLoopFuel fuel base e res = some (expLoop base e res) := by
  induction fuel with
  | zero => intro base e res h; omega
  | succ n ih =>
    intro base e res h
    by_cases he : 0 < e
    · have hlt := asr64_toNat_lt e he
      have ihe := ih (mul64 base base) (asr64 e)
        (if tmod64 e 2 ≠ 0 then mul64 res base else res) (by omega)
      simp only [expLoopFuel, if_pos he, ihe]
      have hunf : expLoop base e res
          = expLoop (mul64 base base) (asr64 e)
              (if tmod64 e 2 ≠ 0 then mul64 res base else res) := by
        rw [expLoop]
        simp [he]
      rw [hunf]
    · simp only [expLoopFuel, if_neg he]
      have hunf : expLoop base e res = res := by
        rw [expLoop]
        simp [he]
      rw [hunf]

/-- When the exponent is not positive the iterative loop body never runs. -/
theorem expLoop_nonpos (base e res : Int) (he : ¬0 < e) :
    expLoop base e res = res := by
  rw [expLoop]
  simp [he]

theorem add64_range (a b : Int) : Int64Range (add64 a b) := wrap64_range _

theorem sub64_range (a b : Int) : Int64Range (sub64 a b) := wrap64_range _

theorem mul64_range (a b : Int) : Int64Range (mul64 a b) := wrap64_range _

theorem tmod64_range (a b : Int) : Int64Range (tmod64 a b) := wrap64_range _

theorem eer_base (a : Int) : extended_euclid_recursive a 0 = (a, 1, 0) := by
  simp [extended_euclid_recursive]

theorem eer_step (a b : Int) (hb : b ≠ 0) (g x1 y1 : Int)
    (hE : extended_euclid_recursive b (tmod64 a b) = (g, x1, y1)) :
    extended_euclid_recursive a b
      = (g, y1, sub64 x1 (mul64 (tdiv64 a b) y1)) := by
  rw [extended_euclid_recursive]
  simp [hb, hE]

theorem euclidLoop_base (a x0 y0 x1 y1 : Int) :
    euclidLoop a 0 x0 y0 x1 y1 = (a, x0, y0) := by
  simp [euclidLoop]

theorem euclidLoop_step (a b x0 y0 x1 y1 : Int) (hb : b ≠ 0) :
    euclidLoop a b x0 y0 x1 y1
      = euclidLoop b (tmod64 a b) x1 y1
          (sub64 x0 (mul64 (tdiv64 a b) x1)) (sub64 y0 (mul64 (tdiv64 a b) y1)) := by
  rw [euclidLoop]
  simp [hb, sub_tdiv_mul_eq_tmod64]

theorem euclidGcd_base (a : Int) : euclidGcd a 0 = a := by
  simp [euclidGcd]

theorem euclidGcd_step (a b : Int) (hb : b ≠ 0) :
    euclidGcd a b = euclidGcd b (tmod64 a b) := by
  rw [euclidGcd]
  simp [hb]

/-- Bézout congruence mod 2^64 for the recursive extended Euclid. -/
theorem eer_bezout_cast (a b : Int) :
    (a : ZMod M64) * (((extended_euclid_recursive a b).2.1 : Int) : ZMod M64)
      + (b : ZMod M64) * (((extended_euclid_recursive a b).2.2 : Int) : ZMod M64)
      = (((extended_euclid_recursive a b).1 : Int) : ZMod M64) := by
  induction a, b using extended_euclid_recursive.induct with
  | case1 a =>
    rw [eer_base]
    dsimp only
    push_cast
    ring
  | case2 a b hb g x1 y1 hE ih =>
    rw [eer_step a b hb g x1 y1 hE]
    rw [hE] at ih
    dsimp only at ih ⊢
    rw [intCast_sub64, intCast_mul64, intCast_tdiv64]
    rw [intCast_tmod64] at ih
    linear_combination ih

/-- For representable inputs every component the recursive extended Euclid
returns is representable. -/
theorem eer_range (a b : Int) :
    Int64Range a → Int64Range b →
      Int64Range (extended_euclid_recursive a b).1
      ∧ Int64Range (extended_euclid_recursive a b).2.1
      ∧ Int64Range (extended_euclid_recursive a b).2.2 := by
  induction a, b using extended_euclid_recursive.induct with
  | case1 a =>
    intro ha _
    rw [eer_base]
    dsimp only
    exact ⟨ha, by decide, by decide⟩
  | case2 a b hb g x1 y1 hE ih =>
    intro _ hbr
    have h := ih hbr (tmod64_range a b)
    rw [hE] at h
    dsimp only at h
    rw [eer_step a b hb g x1 y1 hE]
    exact ⟨h.1, h.2.2, sub64_range _ _⟩

theorem eer_fst (a b : Int) :
    (extended_euclid_recursive a b).1 = euclidGcd a b := by
  induction a, b using extended_euclid_recursive.induct with
  | case1 a =>
    rw [eer_base, euclidGcd_base]
  | case2 a b hb g x1 y1 hE ih =>
    rw [eer_step a b hb g x1 y1 hE, euclidGcd_step a b hb]
    rw [hE] at ih
    exact ih

theorem euclidGcd_range (a b : Int) :
    Int64Range a → Int64Range b → Int64Range (euclidGcd a b) := by
  induction a, b using euclidGcd.induct with
  | case1 a =>
    intro ha _
    rw [euclidGcd_base]
    exact ha
  | case2 a b hb ih =>
    intro _ hbr
    rw [euclidGcd_step a b hb]
    exact ih hbr (tmod64_range a b)

theorem euclidLoop_fst (a b x0 y0 x1 y1 : Int) :
    (euclidLoop a b x0 y0 x1 y1).1 = euclidGcd a b := by
  induction a, b, x0, y0, x1, y1 using euclidLoop.induct with
  | case1 a x0 y0 x1 y1 =>
    rw [euclidLoop_base, euclidGcd_base]
  | case2 a b x0 y0 x1 y1 hb ih =>
    rw [sub_tdiv_mul_eq_tmod64] at ih
    rw [euclidLoop_step a b x0 y0 x1 y1 hb, euclidGcd_step a b hb]
    exact ih

/-- The iterative coefficients are, mod 2^64, the recursive coefficients
combined linearly with the loop's seed coefficients. -/
theorem euclidLoop_cast (a b x0 y0 x1 y1 : Int) :
    (((euclidLoop a b x0 y0 x1 y1).2.1 : Int) : ZMod M64)
        = (x0 : ZMod M64) * (((extended_euclid_recursive a b).2.1 : Int) : ZMod M64)
          + (x1 : ZMod M64) * (((extended_euclid_recursive a b).2.2 : Int) : ZMod M64)
    ∧ (((euclidLoop a b x0 y0 x1 y1).2.2 : Int) : ZMod M64)
        = (y0 : ZMod M64) * (((extended_euclid_recursive a b).2.1 : Int) : ZMod M64)
          + (y1 : ZMod M64) * (((extended_euclid_recursive a b).2.2 : Int) : ZMod M64) := by
  induction a, b, x0, y0, x1, y1 using euclidLoop.induct with
  | case1 a x0 y0 x1 y1 =>
    rw [euclidLoop_base, eer_base]
    dsimp only
    constructor <;> push_cast <;> ring
  | case2 a b x0 y0 x1 y1 hb ih =>
    rw [sub_tdiv_mul_eq_tmod64] at ih
    rcases hE : extended_euclid_recursive b (tmod64 a b) with ⟨g, X, Y⟩
    rw [hE] at ih
    dsimp only at ih
    rw [euclidLoop_step a b x0 y0 x1 y1 hb, eer_step a b hb g X Y hE]
    dsimp only
    obtain ⟨ih1, ih2⟩ := ih
    constructor
    · rw [ih1, intCast_sub64, intCast_mul64, intCast_tdiv64,
        intCast_sub64, intCast_mul64, intCast_tdiv64]
      ring
    · rw [ih2, intCast_sub64, intCast_mul64, intCast_tdiv64,
        intCast_sub64, intCast_mul64, intCast_tdiv64]
      ring

theorem euclidLoop_coeff_range (a b x0 y0 x1 y1 : Int) :
    Int64Range x0 → Int64Range y0 → Int64Range x1 → Int64Range y1 →
      Int64Range (euclidLoop a b x0 y0 x1 y1).2.1
      ∧ Int64Range (euclidLoop a b x0 y0 x1 y1).2.2 := by
  induction a, b, x0, y0, x1, y1 using euclidLoop.induct with
  | case1 a x0 y0 x1 y1 =>
    intro hx0 hy0 _ _
    rw [euclidLoop_base]
    exact ⟨hx0, hy0⟩
  | case2 a b x0 y0 x1 y1 hb ih =>
    intro _ _ hx1 hy1
    rw [sub_tdiv_mul_eq_tmod64] at ih
    rw [euclidLoop_step a b x0 y0 x1 y1 hb]
    exact ih hx1 hy1 (sub64_range _ _) (sub64_range _ _)

/-- For representable inputs the two extended Euclid variants return the
same triple. -/
theorem eei_eq_eer (a b : Int) (ha : Int64Range a) (hb : Int64Range b) :
    extended_euclid_iterative a b = extended_euclid_recursive a b := by
  unfold extended_euclid_iterative
  have h2 := euclidLoop_cast a b 1 0 0 1
  have h3 := euclidLoop_coeff_range a b 1 0 0 1
    (by decide) (by decide) (by decide) (by decide)
  have h4 := eer_range a b ha hb
  have hfst : (euclidLoop a b 1 0 0 1).1 = (extended_euclid_recursive a b).1 := by
    rw [euclidLoop_fst, eer_fst]
  have hsnd : (euclidLoop a b 1 0 0 1).2.1
      = (extended_euclid_recursive a b).2.1 := by
    apply int64_cast_inj h3.1 h4.2.1
    rw [h2.1]
    push_cast
    ring
  have htrd : (euclidLoop a b 1 0 0 1).2.2
      = (extended_euclid_recursive a b).2.2 := by
    apply int64_cast_inj h3.2 h4.2.2
    rw [h2.2]
    push_cast
    ring
  rw [Prod.ext_iff, Prod.ext_iff]
  exact ⟨hfst, hsnd, htrd⟩

/-- Bézout identity in 64-bit arithmetic for the recursive variant. -/
theorem eer_bezout (a b : Int) (ha : Int64Range a) (hb : Int64Range b) :
    add64 (mul64 a (extended_euclid_recursive a b).2.1)
        (mul64 b (extended_euclid_recursive a b).2.2)
      = (extended_euclid_recursive a b).1 := by
  apply int64_cast_inj (add64_range _ _) (eer_range a b ha hb).1
  rw [intCast_add64, intCast_mul64, intCast_mul64]
  exact eer_bezout_cast a b

theorem ber_base (base : Int) : binary_exponent_recursive base 0 = 1 := by
  simp [binary_exponent_recursive]

theorem ber_step (base e : Int) (he : e ≠ 0) :
    binary_exponent_recursive base e
      = if tmod64 e 2 ≠ 0 then
          mul64 (mul64 (binary_exponent_recursive base (tdiv64 e 2))
            (binary_exponent_recursive base (tdiv64 e 2))) base
        else mul64 (binary_exponent_recursive base (tdiv64 e 2))
          (binary_exponent_recursive base (tdiv64 e 2)) := by
  rw [binary_exponent_recursive]
  simp [he]

theorem expLoop_step (base e res : Int) (he : 0 < e) :
    expLoop base e res
      = expLoop (mul64 base base) (asr64 e)
          (if tmod64 e 2 ≠ 0 then mul64 res base else res) := by
  rw [expLoop]
  simp [he]

theorem ber_range (base e : Int) :
    Int64Range (binary_exponent_recursive base e) := by
  induction e using binary_exponent_recursive.induct with
  | base => exact base
  | case1 =>
    rw [ber_base]
    decide
  | case2 x hx hpar ih =>
    rw [ber_step base x hx, if_pos hpar]
    exact mul64_range _ _
  | case3 x hx hpar ih =>
    rw [ber_step base x hx, if_neg hpar]
    exact mul64_range _ _

theorem expLoop_range (base e res : Int) :
    Int64Range res → Int64Range (expLoop base e res) := by
  induction base, e, res using expLoop.induct with
  | case1 base e res he ih =>
    intro hres
    rw [expLoop_step base e res he]
    apply ih
    by_cases hpar : tmod64 e 2 ≠ 0 <;> simp [hpar]
    · exact mul64_range _ _
    · exact hres
  | case2 base e res he =>
    intro hres
    rw [expLoop_nonpos base e res he]
    exact hres

/-- For a representable exponent, halving by truncating division halves
the absolute value. -/
theorem tdiv64_two_natAbs (e : Int) (hr : Int64Range e) :
    (tdiv64 e 2).natAbs = e.natAbs / 2 := by
  have h1 : (Int.tdiv e 2).natAbs = e.natAbs / 2 := by
    rw [Int.natAbs_tdiv]
    rfl
  have h2 : wrap64 (Int.tdiv e 2) = Int.tdiv e 2 := by
    apply wrap64_eq_self
    unfold Int64Range at hr ⊢
    omega
  unfold tdiv64
  rw [h2, h1]

/-- The C++ parity test `exponent % 2` is nonzero exactly when the
absolute value of the exponent is odd. -/
theorem tmod64_two_ne_zero_iff (e : Int) :
    tmod64 e 2 ≠ 0 ↔ e.natAbs % 2 = 1 := by
  have h1 : (Int.tmod e 2).natAbs = e.natAbs % 2 := by
    rw [natAbs_tmod]
    rfl
  have hlt : e.natAbs % 2 < 2 := Nat.mod_lt _ (by omega)
  have h2 : wrap64 (Int.tmod e 2) = Int.tmod e 2 := by
    apply wrap64_eq_self
    unfold Int64Range
    omega
  unfold tmod64
  rw [h2]
  omega

/-- Mod 2^64, the recursive variant computes `base ^ |exponent|` for any
representable exponent (truncating division walks the exponent toward
zero on both sides of 0). -/
theorem ber_cast (base e : Int) :
    Int64Range e →
      ((binary_exponent_recursive base e : Int) : ZMod M64)
        = (base : ZMod M64) ^ e.natAbs := by
  induction e using binary_exponent_recursive.induct with
  | base => exact base
  | case1 =>
    intro _
    rw [ber_base]
    simp
  | case2 x hx hpar ih =>
    intro hr
    have hdiv := tdiv64_two_natAbs x hr
    have hih := ih (wrap64_range _)
    have hodd : x.natAbs % 2 = 1 := (tmod64_two_ne_zero_iff x).mp hpar
    have hsplit : x.natAbs = (tdiv64 x 2).natAbs + (tdiv64 x 2).natAbs + 1 := by
      omega
    rw [ber_step base x hx, if_pos hpar, intCast_mul64, intCast_mul64, hih,
      hsplit, pow_add, pow_add, pow_one]
  | case3 x hx hpar ih =>
    intro hr
    have hdiv := tdiv64_two_natAbs x hr
    have hih := ih (wrap64_range _)
    have heven : x.natAbs % 2 = 0 := by
      have := (tmod64_two_ne_zero_iff x).not.mp hpar
      omega
    have hsplit : x.natAbs = (tdiv64 x 2).natAbs + (tdiv64 x 2).natAbs := by
      have h0 : x.natAbs ≠ 0 := Int.natAbs_ne_zero.mpr hx
      omega
    rw [ber_step base x hx, if_neg hpar, intCast_mul64, hih, hsplit, pow_add]

/-- Mod 2^64, the iterative loop multiplies `res` by `base ^ exponent`
for nonnegative representable exponents. -/
theorem expLoop_cast (base e res : Int) :
    0 ≤ e → e < 9223372036854775808 →
      ((expLoop base e res : Int) : ZMod M64)
        = (res : ZMod M64) * (base : ZMod M64) ^ e.toNat := by
  induction base, e, res using expLoop.induct with
  | case1 base e res he ih =>
    intro h0 hlt
    have hasr : asr64 e = e / 2 := by
      unfold asr64
      rw [Int.fdiv_eq_ediv _ (by norm_num)]
      apply wrap64_eq_self
      unfold Int64Range
      omega
    have hsplit : e.toNat = 2 * (asr64 e).toNat + e.natAbs % 2 := by
      rw [hasr]
      omega
    rw [expLoop_step base e res he]
    simp only [dite_eq_ite] at ih
    rw [ih (by rw [hasr]; omega) (by rw [hasr]; omega)]
    rw [hsplit, pow_add, pow_mul, intCast_mul64]
    by_cases hpar : tmod64 e 2 ≠ 0
    · have hodd : e.natAbs % 2 = 1 := (tmod64_two_ne_zero_iff e).mp hpar
      rw [if_pos hpar, intCast_mul64, hodd]
      ring
    · have heven : e.natAbs % 2 = 0 := by
        have := (tmod64_two_ne_zero_iff e).not.mp hpar
        omega
      rw [if_neg hpar, heven]
      ring
  | case2 base e res he =>
    intro h0 hlt
    have he0 : e = 0 := by omega
    rw [expLoop_nonpos base e res he, he0]
    simp

theorem npow64_range (b : Int) (n : Nat) : Int64Range (npow64 b n) :=
  wrap64_range _

theorem intCast_npow64 (b : Int) (n : Nat) :
    ((npow64 b n : Int) : ZMod M64) = (b : ZMod M64) ^ n := by
  unfold npow64
  rw [intCast_wrap64]
  push_cast
  ring

/-- The recursive variant equals the wrapped power of the absolute value
of the exponent, for any representable exponent (positive or negative). -/
theorem ber_eq_npow64 (base e : Int) (hr : Int64Range e) :
    binary_exponent_recursive base e = npow64 base e.natAbs := by
  apply int64_cast_inj (ber_range base e) (npow64_range base e.natAbs)
  rw [ber_cast base e hr, intCast_npow64]

/-- The iterative variant equals the wrapped power for nonnegative
representable exponents. -/
theorem bei_eq_npow64 (base e : Int) (h0 : 0 ≤ e)
    (hlt : e < 9223372036854775808) :
    binary_exponent_iterative base e = npow64 base e.toNat := by
  unfold binary_exponent_iterative
  apply int64_cast_inj (expLoop_range base e 1 (by decide))
    (npow64_range base e.toNat)
  rw [expLoop_cast base e 1 h0 hlt, intCast_npow64]
  push_cast
  ring

theorem ber_of_fuel (fuel : Nat) {base e v : Int} (hf : e.natAbs < fuel)
    (hv : berFuel fuel base e = some v) :
    binary_exponent_recursive base e = v := by
  rw [berFuel_adequate fuel base e hf] at hv
  exact Option.some.inj hv

theorem bei_of_fuel (fuel : Nat) {base e v : Int} (hf : e.toNat < fuel)
    (hv : expLoopFuel fuel base e 1 = some v) :
    binary_exponent_iterative base e = v := by
  rw [expLoopFuel_adequate fuel base e 1 hf] at hv
  exact Option.some.inj hv

theorem eer_of_fuel (fuel : Nat) {a b : Int} {v : Int × Int × Int}
    (hf : b.natAbs < fuel) (hv : eerFuel fuel a b = some v) :
    extended_euclid_recursive a b = v := by
  rw [eerFuel_adequate fuel a b hf] at hv
  exact Option.some.inj hv

theorem eei_of_fuel (fuel : Nat) {a b : Int} {v : Int × Int × Int}
    (hf : b.natAbs < fuel) (hv : euclidLoopFuel fuel a b 1 0 0 1 = some v) :
    extended_euclid_iterative a b = v := by
  unfold extended_euclid_iterative
  rw [euclidLoopFuel_adequate fuel a b 1 0 0 1 hf] at hv
  exact Option.some.inj hv

/-- C1: for every pair of representable int64 inputs `(a, b)`, the triple
`(gcd, x, y)` returned by `extended_euclid_recursive` satisfies
`a*x + b*y == gcd` exactly in 64-bit arithmetic, and likewise for
`extended_euclid_iterative`. -/
theorem C1_bezout_invariant (a b : Int)
    (ha : Int64Range a) (hb : Int64Range b) :
    add64 (mul64 a (extended_euclid_recursive a b).2.1)
        (mul64 b (extended_euclid_recursive a b).2.2)
      = (extended_euclid_recursive a b).1
    ∧ add64 (mul64 a (extended_euclid_iterative a b).2.1)
        (mul64 b (extended_euclid_iterative a b).2.2)
      = (extended_euclid_iterative a b).1 := by
  constructor
  · exact eer_bezout a b ha hb
  · rw [eei_eq_eer a b ha hb]
    exact eer_bezout a b ha hb

/-- Witness for C1 at `(a, b) = (30, 20)`. -/
theorem C1_bezout_invariant_witness :
    add64 (mul64 30 (extended_euclid_recursive 30 20).2.1)
        (mul64 20 (extended_euclid_recursive 30 20).2.2)
      = (extended_euclid_recursive 30 20).1
    ∧ add64 (mul64 30 (extended_euclid_iterative 30 20).2.1)
        (mul64 20 (extended_euclid_iterative 30 20).2.2)
      = (extended_euclid_iterative 30 20).1 :=
  C1_bezout_invariant 30 20 (by decide) (by decide)

/-- C2: for every representable int64 base and every representable
exponent >= 0, the recursive and iterative power functions return the
same bit-identical value. -/
theorem C2_power_variants_agree (base exponent : Int)
    (hb : Int64Range base) (he : Int64Range exponent) (h0 : 0 ≤ exponent) :
    binary_exponent_recursive base exponent
      = binary_exponent_iterative base exponent := by
  have he2 : exponent < 9223372036854775808 := he.2
  rw [ber_eq_npow64 base exponent he, bei_eq_npow64 base exponent h0 he2]
  have hn : exponent.natAbs = exponent.toNat := by omega
  rw [hn]

/-- Witness for C2 at `(base, exponent) = (3, 7)`. -/
theorem C2_power_variants_agree_witness :
    binary_exponent_recursive 3 7 = binary_exponent_iterative 3 7 :=
  C2_power_variants_agree 3 7 (by decide) (by decide) (by decide)

/-- C3: for every pair of representable int64 inputs `(a, b)`, the two
extended Euclid variants produce identical output triples. -/
theorem C3_extended_euclid_variants_agree (a b : Int)
    (ha : Int64Range a) (hb : Int64Range b) :
    extended_euclid_recursive a b = extended_euclid_iterative a b :=
  (eei_eq_eer a b ha hb).symm

/-- Witness for C3 at `(a, b) = (55, 34)`. -/
theorem C3_extended_euclid_variants_agree_witness :
    extended_euclid_recursive 55 34 = extended_euclid_iterative 55 34 :=
  C3_extended_euclid_variants_agree 55 34 (by decide) (by decide)

/-- C4: both power variants return 1 at exponent 0 for any base, and
both extended Euclid variants on `(a, 0)` return `(a, 1, 0)`. -/
theorem C4_base_cases (base a : Int) :
    binary_exponent_recursive base 0 = 1
    ∧ binary_exponent_iterative base 0 = 1
    ∧ extended_euclid_recursive a 0 = (a, 1, 0)
    ∧ extended_euclid_iterative a 0 = (a, 1, 0) := by
  refine ⟨ber_base base, ?_, eer_base a, ?_⟩
  · unfold binary_exponent_iterative
    exact expLoop_nonpos base 0 1 (by omega)
  · unfold extended_euclid_iterative
    exact euclidLoop_base a 1 0 0 1

/-- C5: the concrete scenarios of the specification hold for both the
recursive and the iterative implementation of each operation, including
`extended_gcd(30, 20) = (10, 1, -1)`. -/
theorem C5_concrete_scenarios :
    binary_exponent_recursive 2 10 = 1024
    ∧ binary_exponent_iterative 2 10 = 1024
    ∧ binary_exponent_recursive 3 7 = 2187
    ∧ binary_exponent_iterative 3 7 = 2187
    ∧ binary_exponent_recursive 4 12 = 16777216
    ∧ binary_exponent_iterative 4 12 = 16777216
    ∧ binary_exponent_recursive 5 15 = 30517578125
    ∧ binary_exponent_iterative 5 15 = 30517578125
    ∧ binary_exponent_recursive 6 20 = 3656158440062976
    ∧ binary_exponent_iterative 6 20 = 3656158440062976
    ∧ extended_euclid_recursive 30 20 = (10, 1, -1)
    ∧ extended_euclid_iterative 30 20 = (10, 1, -1) :=
  ⟨ber_of_fuel 64 (by decide) (by decide),
   bei_of_fuel 64 (by decide) (by decide),
   ber_of_fuel 64 (by decide) (by decide),
   bei_of_fuel 64 (by decide) (by decide),
   ber_of_fuel 64 (by decide) (by decide),
   bei_of_fuel 64 (by decide) (by decide),
   ber_of_fuel 64 (by decide) (by decide),
   bei_of_fuel 64 (by decide) (by decide),
   ber_of_fuel 64 (by decide) (by decide),
   bei_of_fuel 64 (by decide) (by decide),
   eer_of_fuel 64 (by decide) (by decide),
   eei_of_fuel 64 (by decide) (by decide)⟩

/-- C6 counterexample: on input `(101, 23)` neither variant returns the
triple `(1, -9, 39)` claimed by the specification (which does not even
satisfy Bezout: 101*(-9) + 23*39 = -12). -/
theorem C6_counterexample :
    extended_euclid_recursive 101 23 ≠ (1, -9, 39)
    ∧ extended_euclid_iterative 101 23 ≠ (1, -9, 39) := by
  have h1 : extended_euclid_recursive 101 23 = (1, -5, 22) :=
    eer_of_fuel 64 (by decide) (by decide)
  have h2 : extended_euclid_iterative 101 23 = (1, -5, 22) :=
    eei_of_fuel 64 (by decide) (by decide)
  rw [h1, h2]
  constructor <;> decide

/-- C6 amended: both extended Euclid variants on input `(101, 23)` return
the triple `(1, -5, 22)`, which satisfies 101*(-5) + 23*22 = 1. -/
theorem C6_amended_101_23 :
    extended_euclid_recursive 101 23 = (1, -5, 22)
    ∧ extended_euclid_iterative 101 23 = (1, -5, 22) :=
  ⟨eer_of_fuel 64 (by decide) (by decide),
   eei_of_fuel 64 (by decide) (by decide)⟩

/-- C7: the gcd both variants return is exactly the working value `a` at
the moment `b` reaches 0 (the chain `euclidGcd`), with no normalization
to a non-negative value; both variants agree, and for `(-4, -2)` the
returned gcd is the negative value -2. -/
theorem C7_gcd_sign (a b : Int) :
    (extended_euclid_recursive a b).1 = euclidGcd a b
    ∧ (extended_euclid_iterative a b).1 = euclidGcd a b
    ∧ (extended_euclid_recursive (-4) (-2)).1 = -2
    ∧ (extended_euclid_iterative (-4) (-2)).1 = -2 := by
  refine ⟨eer_fst a b, ?_, ?_, ?_⟩
  · unfold extended_euclid_iterative
    exact euclidLoop_fst a b 1 0 0 1
  · have h : extended_euclid_recursive (-4) (-2) = (-2, 0, 1) :=
      eer_of_fuel 64 (by decide) (by decide)
    rw [h]
  · have h : extended_euclid_iterative (-4) (-2) = (-2, 0, 1) :=
      eei_of_fuel 64 (by decide) (by decide)
    rw [h]

/-- C8: for every base and every exponent < 0, the iterative power
function returns 1 immediately, because the loop guard `exponent > 0` is
false on entry. -/
theorem C8_iterative_negative_exponent (base exponent : Int)
    (h : exponent < 0) :
    binary_exponent_iterative base exponent = 1 := by
  unfold binary_exponent_iterative
  exact expLoop_nonpos base exponent 1 (by omega)

/-- Witness for C8 at `(base, exponent) = (7, -5)`. -/
theorem C8_iterative_negative_exponent_witness :
    binary_exponent_iterative 7 (-5) = 1 :=
  C8_iterative_negative_exponent 7 (-5) (by decide)

/-- C9 counterexample: at `(base, exponent) = (2, -1)` the recursive
power function terminates (its fuel version already succeeds with fuel 2,
returning 2), and the recursive call argument `(-1) / 2 = 0` moves toward
zero rather than toward more-negative values. -/
theorem C9_counterexample :
    berFuel 2 2 (-1) = some 2
    ∧ tdiv64 (-1) 2 = 0
    ∧ binary_exponent_recursive 2 (-1) = 2 := by
  refine ⟨by decide, by decide, ?_⟩
  exact ber_of_fuel 2 (by decide) (by decide)

/-- C9 amended: for every base and every representable exponent < 0,
the recursive variant terminates (truncating division moves the exponent
toward zero), returning the wrapped power `base ^ |exponent|`, while the
iterative variant returns 1 immediately, so the two variants still
diverge in behavior for negative exponents. -/
theorem C9_amended_negative_exponent (base exponent : Int)
    (hr : Int64Range exponent) (h : exponent < 0) :
    berFuel (exponent.natAbs + 1) base exponent
        = some (binary_exponent_recursive base exponent)
    ∧ binary_exponent_recursive base exponent = npow64 base exponent.natAbs
    ∧ binary_exponent_iterative base exponent = 1 := by
  refine ⟨berFuel_adequate _ base exponent (by omega),
    ber_eq_npow64 base exponent hr, ?_⟩
  unfold binary_exponent_iterative
  exact expLoop_nonpos base exponent 1 (by omega)

/-- Witness for the amended C9 at `(base, exponent) = (2, -3)`. -/
theorem C9_amended_negative_exponent_witness :
    berFuel ((-3 : Int).natAbs + 1) 2 (-3)
        = some (binary_exponent_recursive 2 (-3))
    ∧ binary_exponent_recursive 2 (-3) = npow64 2 (-3 : Int).natAbs
    ∧ binary_exponent_iterative 2 (-3) = 1 :=
  C9_amended_negative_exponent 2 (-3) (by decide) (by decide)

/-- C10: both extended Euclid variants terminate on every input pair:
whenever `b != 0` the next second argument `a - (a/b)*b` is strictly
smaller in absolute value than `b`, and |b| + 1 steps of fuel always
suffice for the fuel versions to reach the base case and agree with the
total functions. -/
theorem C10_termination (a b x0 y0 x1 y1 : Int) :
    (b ≠ 0 → (sub64 a (mul64 (tdiv64 a b) b)).natAbs < b.natAbs)
    ∧ eerFuel (b.natAbs + 1) a b = some (extended_euclid_recursive a b)
    ∧ euclidLoopFuel (b.natAbs + 1) a b x0 y0 x1 y1
        = some (euclidLoop a b x0 y0 x1 y1) := by
  refine ⟨?_, eerFuel_adequate _ a b (by omega),
    euclidLoopFuel_adequate _ a b x0 y0 x1 y1 (by omega)⟩
  intro hb
  rw [sub_tdiv_mul_eq_tmod64]
  exact tmod64_natAbs_lt a b hb

/-- Witness for C10 at `(a, b) = (9, 6)` with the standard seed
coefficients. -/
theorem C10_termination_witness :
    (sub64 9 (mul64 (tdiv64 9 6) 6)).natAbs < (6 : Int).natAbs
    ∧ eerFuel ((6 : Int).natAbs + 1) 9 6
        = some (extended_euclid_recursive 9 6)
    ∧ euclidLoopFuel ((6 : Int).natAbs + 1) 9 6 1 0 0 1
        = some (euclidLoop 9 6 1 0 0 1) :=
  ⟨(C10_termination 9 6 1 0 0 1).1 (by decide),
   (C10_termination 9 6 1 0 0 1).2.1,
   (C10_termination 9 6 1 0 0 1).2.2⟩

end CPP
